import Mathlib

set_option maxRecDepth 40000

/-!
Verification of the Game of Life simulation core (ill-usion/game-of-life).

Shallow embedding of the simulation engine found in the JavaScript source
(`src/unnamed/part_001`).  JavaScript `Number` values used as grid
coordinates are modelled as `Int` (all arithmetic performed by the program
on them is exact integer arithmetic well within the 2^53 double range), and
`BigInt` cell keys are modelled as `Int` (arbitrary-precision two's
complement, exactly the `BigInt` semantics).  A JavaScript `Set` of keys is
modelled as an insertion-ordered duplicate-free `List Int`: `Set.add`
appends the element if it is not already present, and `for ... of`
iteration visits elements in insertion order, *including* elements added
while the iteration is in progress — faithfully reproduced by the indexed
loop `simLoop` below.  The grid dimensions `width`/`height` (module
globals in the source) are passed explicitly as parameters `w h : Int`.
-/

/-- JS `Set.prototype.add` on a set modelled as an insertion-ordered list:
appends the key iff it is not already a member. -/
def jsSetAdd (s : List Int) (k : Int) : List Int :=
  if k ∈ s then s else s ++ [k]

/-- Source `wrapCoord` (lines 39–43): `((x % width) + width) % width` where
JS `%` is the truncated remainder, i.e. `Int.tmod`. -/
def wrapCoord (w h x y : Int) : Int × Int :=
  (((x.tmod w) + w).tmod w, ((y.tmod h) + h).tmod h)

/-- Bitwise difference on naturals, `m AND (NOT n)`: subtracting the
common bits `m &&& n` from `m` clears exactly the bits of `m` that are
set in `n`. -/
def natLdiff (m n : ℕ) : ℕ :=
  m - (m &&& n)

/-- JS `BigInt` bitwise or: arbitrary-precision two's complement, where
`-(n+1)` is the complement of `n`, so e.g. `x | ¬n = ¬(n AND ¬x)`. -/
def bigOr : Int → Int → Int
  | .ofNat m, .ofNat n => .ofNat (m ||| n)
  | .ofNat m, .negSucc n => .negSucc (natLdiff n m)
  | .negSucc m, .ofNat n => .negSucc (natLdiff m n)
  | .negSucc m, .negSucc n => .negSucc (m &&& n)

/-- JS `BigInt` bitwise and, two's complement. -/
def bigAnd : Int → Int → Int
  | .ofNat m, .ofNat n => .ofNat (m &&& n)
  | .ofNat m, .negSucc n => .ofNat (natLdiff m n)
  | .negSucc m, .ofNat n => .ofNat (natLdiff n m)
  | .negSucc m, .negSucc n => .negSucc (m ||| n)

/-- JS `BigInt` left shift by a non-negative count: exact multiplication
by `2 ^ s` (arbitrary precision, no truncation). -/
def bigShiftLeft (a : Int) (s : ℕ) : Int :=
  a * 2 ^ s

/-- JS `BigInt` right shift: arithmetic shift, i.e. floor division by
`2 ^ s`; on two's complement `¬m >> s = ¬(m >> s)`. -/
def bigShiftRight : Int → ℕ → Int
  | .ofNat m, s => .ofNat (m >>> s)
  | .negSucc m, s => .negSucc (m >>> s)

/-- Source `packCoord` (lines 51–53): `(BigInt(y) << 32n) | BigInt(x)`. -/
def packCoord (x y : Int) : Int :=
  bigOr (bigShiftLeft y 32) x

/-- Source `unpackCoord` (lines 60–65): low 32 bits (`packed & 0xffffffffn`),
arithmetic shift right by 32 (`packed >> 32n`), then `wrapCoord`. -/
def unpackCoord (w h : Int) (packed : Int) : Int × Int :=
  wrapCoord w h (bigAnd packed 0xffffffff) (bigShiftRight packed 32)

/-- The eight Moore-neighbourhood offsets, in the order they appear in the
source's `potentialNeighborOffsets` array (lines 80–89). -/
def neighborOffsets : List (Int × Int) :=
  [(1, 1), (0, 1), (1, 0), (-1, -1), (0, -1), (-1, 0), (1, -1), (-1, 1)]

/-- Source `neighborsCount` (lines 73–98): counts the offsets whose wrapped,
packed coordinate is a member of the active set. -/
def neighborsCount (w h : Int) (active : List Int) (cx cy : Int) : Nat :=
  neighborOffsets.countP fun o =>
    decide (packCoord (wrapCoord w h (cx + o.1) (cy + o.2)).1
      (wrapCoord w h (cx + o.1) (cy + o.2)).2 ∈ active)

/-- The nine offsets of a 3x3 neighbourhood in the order generated by the
source's nested `for (ny) for (nx)` loops (pairs are `(nx, ny)`). -/
def offsets9 : List (Int × Int) :=
  [(-1, -1), (0, -1), (1, -1), (-1, 0), (0, 0), (1, 0), (-1, 1), (0, 1), (1, 1)]

/-- The death branch of `simulate` (lines 118–120) and `insertCell`
(lines 236–238) add the *raw, unwrapped* packed keys of the 3x3
neighbourhood of `(x, y)` to a potential set. -/
def addNbhdRaw (x y : Int) (pot : List Int) : List Int :=
  offsets9.foldl (fun s o => jsSetAdd s (packCoord (x + o.1) (y + o.2))) pot

/-- The birth branch of `simulate` (lines 130–134) adds the *wrapped*
packed keys of the 3x3 neighbourhood of `(x, y)` to a potential set. -/
def addNbhdWrapped (w h x y : Int) (pot : List Int) : List Int :=
  offsets9.foldl
    (fun s o => jsSetAdd s (packCoord (wrapCoord w h (x + o.1) (y + o.2)).1
      (wrapCoord w h (x + o.1) (y + o.2)).2)) pot

/-- The neighbour count `simulate` computes for a potential-set key: the
key is decoded (lines 110–111) and the live neighbours of the decoded,
wrapped position are counted against the current active set. -/
def cellCount (w h : Int) (A : List Int) (cell : Int) : Nat :=
  neighborsCount w h A (unpackCoord w h cell).1 (unpackCoord w h cell).2

/-- The module-global mutable state of the source: the four cell sets and
the generation counter. -/
structure GameState where
  activeCells : List Int
  activeCellsNext : List Int
  potentialCells : List Int
  potentialCellsNext : List Int
  generation : Int
deriving DecidableEq, Repr

/-- The `for (const cell of potentialCells)` loop of `simulate`
(lines 109–136).  Because the source never re-allocates
`potentialCellsNext`, the loop iterates over the very set it is adding to;
a JS `Set` iterator visits elements appended during iteration, so the loop
is an index-driven traversal of a growing list.  `fuel` is an upper bound
on the number of iterations; `simulate` passes a provably sufficient
amount. `A` is the (fixed) current active set, `acc` the next active set
being built, `pot` the shared current/next potential set. -/
def simLoop (w h : Int) (A : List Int) :
    Nat → Nat → List Int → List Int → List Int × List Int
  | 0, _, acc, pot => (acc, pot)
  | fuel + 1, i, acc, pot =>
    match pot[i]? with
    | none => (acc, pot)
    | some cell =>
      if cell ∈ A then
        if cellCount w h A cell ≠ 2 ∧ cellCount w h A cell ≠ 3 then
          simLoop w h A fuel (i + 1) acc
            (addNbhdRaw (unpackCoord w h cell).1 (unpackCoord w h cell).2 pot)
        else
          simLoop w h A fuel (i + 1) (jsSetAdd acc cell) pot
      else if cellCount w h A cell = 3 then
        simLoop w h A fuel (i + 1) (jsSetAdd acc cell)
          (addNbhdWrapped w h (unpackCoord w h cell).1 (unpackCoord w h cell).2 pot)
      else
        simLoop w h A fuel (i + 1) acc pot

/-- Iteration budget for `simLoop`: the loop can only ever append keys of
cells within one step of the wrapped grid, of which there are at most
`(w+2)*(h+2)`, so this many iterations always reach the end of the list. -/
def fuelFor (w h : Int) (pot : List Int) : Nat :=
  pot.length + (w.toNat + 2) * (h.toNat + 2)

/-- Source `simulate` (lines 103–142).  Promotes `activeCellsNext` to
`activeCells` and allocates a fresh next active set; `potentialCells` is
assigned the same object as `potentialCellsNext` (which is *not*
re-allocated, so both fields end up as the final grown list); runs the
evaluation loop; increments the generation counter. -/
def simulate (w h : Int) (st : GameState) : GameState :=
  { activeCells := st.activeCellsNext
    activeCellsNext :=
      (simLoop w h st.activeCellsNext (fuelFor w h st.potentialCellsNext)
        0 [] st.potentialCellsNext).1
    potentialCells :=
      (simLoop w h st.activeCellsNext (fuelFor w h st.potentialCellsNext)
        0 [] st.potentialCellsNext).2
    potentialCellsNext :=
      (simLoop w h st.activeCellsNext (fuelFor w h st.potentialCellsNext)
        0 [] st.potentialCellsNext).2
    generation := st.generation + 1 }

/-- Source `resetGame` (lines 177–185): four fresh empty sets, generation 0. -/
def resetGame : GameState :=
  { activeCells := []
    activeCellsNext := []
    potentialCells := []
    potentialCellsNext := []
    generation := 0 }

/-- Source `insertCell` (lines 231–241): packs the *raw* `(x, y)` (no
wrapping), adds the key to both active sets, and adds the raw 3x3
neighbourhood keys to the next potential set. -/
def insertCell (x y : Int) (st : GameState) : GameState :=
  { activeCells := jsSetAdd st.activeCells (packCoord x y)
    activeCellsNext := jsSetAdd st.activeCellsNext (packCoord x y)
    potentialCells := st.potentialCells
    potentialCellsNext := addNbhdRaw x y st.potentialCellsNext
    generation := st.generation }

/-- Inner column loop of `insertCellPattern`: inserts a cell for every `#`
character of one row. -/
def insertRowCells (x y : Int) : List Char → GameState → GameState
  | [], st => st
  | ch :: rest, st =>
    insertRowCells (x + 1) y rest (if ch = '#' then insertCell x y st else st)

/-- Source `insertCellPattern` (lines 249–259): rows are consumed top to
bottom (row index = y offset), characters left to right (column index = x
offset); `#` marks an alive cell. -/
def insertCellPattern (x y : Int) : List (List Char) → GameState → GameState
  | [], st => st
  | row :: rest, st => insertCellPattern x (y + 1) rest (insertRowCells x y row st)

/-- The four cells of a 2x2 block at (3,3)–(4,4), in insertion order. -/
def blockCells : List Int :=
  [packCoord 3 3, packCoord 4 3, packCoord 3 4, packCoord 4 4]

/-- Reset state with the four block cells inserted. -/
def stBlock : GameState :=
  insertCell 4 4 (insertCell 3 4 (insertCell 4 3 (insertCell 3 3 resetGame)))

/-- The stable simulation state reached by stepping `stBlock`: all four
sets keep the same contents; only the generation counter varies. -/
def blockState (g : Int) : GameState :=
  { activeCells := blockCells
    activeCellsNext := blockCells
    potentialCells := stBlock.potentialCellsNext
    potentialCellsNext := stBlock.potentialCellsNext
    generation := g }

/-- An arbitrary module state in which a cell is recorded as alive in the
next active buffer without being in any potential buffer. -/
def stray : GameState :=
  ⟨[], [5], [], [], 0⟩

/-- The survival/birth condition of the rule engine for a potential-set
key, exactly as branched on in `simulate`: the key stays/becomes active
iff it is active with count 2 or 3, or inactive with count 3. -/
def simCond (w h : Int) (A : List Int) (c : Int) : Prop :=
  (c ∈ A ∧ (cellCount w h A c = 2 ∨ cellCount w h A c = 3)) ∨
  (c ∉ A ∧ cellCount w h A c = 3)

/-- All keys the evaluation loop can ever append: raw packings of
coordinates within one step of the wrapped grid. -/
def univKeys (w h : Int) : Finset Int :=
  ((Finset.range (w.toNat + 2)) ×ˢ (Finset.range (h.toNat + 2))).image
    (fun p => packCoord ((p.1 : Int) - 1) ((p.2 : Int) - 1))


/-! ## Basic lemmas about the JS set model -/

theorem mem_jsSetAdd {s : List Int} {k a : Int} :
    a ∈ jsSetAdd s k ↔ a ∈ s ∨ a = k := by
  unfold jsSetAdd
  split
  · exact ⟨Or.inl, fun hor => hor.elim id (fun hak => hak ▸ ‹k ∈ s›)⟩
  · simp [List.mem_append]

theorem jsSetAdd_exists_append (s : List Int) (k : Int) :
    ∃ t, jsSetAdd s k = s ++ t := by
  unfold jsSetAdd
  split
  · exact ⟨[], by simp⟩
  · exact ⟨[k], rfl⟩

theorem foldl_jsSetAdd_exists_append {α : Type} (f : α → Int) :
    ∀ (L : List α) (s : List Int),
      ∃ t, L.foldl (fun acc o => jsSetAdd acc (f o)) s = s ++ t
  | [], s => ⟨[], by simp⟩
  | a :: L, s => by
    obtain ⟨t₁, ht₁⟩ := jsSetAdd_exists_append s (f a)
    obtain ⟨t₂, ht₂⟩ := foldl_jsSetAdd_exists_append f L (jsSetAdd s (f a))
    exact ⟨t₁ ++ t₂, by rw [List.foldl_cons, ht₂, ht₁, List.append_assoc]⟩

theorem mem_foldl_jsSetAdd {α : Type} (f : α → Int) :
    ∀ (L : List α) (s : List Int) (a : Int),
      a ∈ L.foldl (fun acc o => jsSetAdd acc (f o)) s ↔ a ∈ s ∨ ∃ o ∈ L, f o = a
  | [], s, a => by simp
  | x :: L, s, a => by
    rw [List.foldl_cons, mem_foldl_jsSetAdd f L, mem_jsSetAdd]
    constructor
    · rintro ((hs | hx) | ⟨o, ho, rfl⟩)
      · exact Or.inl hs
      · exact Or.inr ⟨x, by simp, hx.symm⟩
      · exact Or.inr ⟨o, by simp [ho], rfl⟩
    · rintro (hs | ⟨o, ho, rfl⟩)
      · exact Or.inl (Or.inl hs)
      · rcases List.mem_cons.mp ho with rfl | ho
        · exact Or.inl (Or.inr rfl)
        · exact Or.inr ⟨o, ho, rfl⟩

theorem subset_foldl_jsSetAdd {α : Type} (f : α → Int) (L : List α) (s : List Int) :
    s ⊆ L.foldl (fun acc o => jsSetAdd acc (f o)) s := by
  obtain ⟨t, ht⟩ := foldl_jsSetAdd_exists_append f L s
  intro a ha
  simp [ht, List.mem_append, ha]

/-! ## The coordinate codec -/

theorem tmod_lower_bound (a : Int) {m : Int} (hm : 0 < m) : -m < a.tmod m := by
  rcases Int.le_or_lt 0 a with ha | ha
  · have := Int.tmod_nonneg m ha
    omega
  · cases a with
    | ofNat j => rw [Int.ofNat_eq_natCast] at ha; omega
    | negSucc k =>
      obtain ⟨n, rfl⟩ := Int.eq_ofNat_of_zero_le (Int.le_of_lt hm)
      have hn : 0 < n := by exact_mod_cast hm
      have hdef : (Int.negSucc k).tmod ((n : ℕ) : Int) = -(((k + 1) % n : ℕ) : Int) := rfl
      have hlt : (k + 1) % n < n := Nat.mod_lt _ hn
      rw [hdef]
      omega

theorem tmod_emod (a m : Int) : (a.tmod m) % m = a % m := by
  conv_rhs => rw [← Int.tmod_add_tdiv a m, Int.add_mul_emod_self_left]

/-- The JS idiom `((a % m) + m) % m` (with `%` the truncated remainder)
computes the mathematical (Euclidean) remainder for a positive modulus. -/
theorem jsMod_eq_emod (a : Int) {m : Int} (hm : 0 < m) :
    ((a.tmod m) + m).tmod m = a % m := by
  have h1 : 0 ≤ a.tmod m + m := by
    have := tmod_lower_bound a hm
    omega
  rw [Int.tmod_eq_emod h1 (Int.le_of_lt hm)]
  have h2 : (a.tmod m + m) % m = (a.tmod m) % m := by
    conv_lhs => rw [show a.tmod m + m = a.tmod m + m * 1 by ring, Int.add_mul_emod_self_left]
  rw [h2, tmod_emod]

theorem wrapCoord_eq_emod {w h : Int} (hw : 0 < w) (hh : 0 < h) (x y : Int) :
    wrapCoord w h x y = (x % w, y % h) := by
  unfold wrapCoord
  rw [jsMod_eq_emod x hw, jsMod_eq_emod y hh]

theorem wrapCoord_mem_range {w h : Int} (hw : 0 < w) (hh : 0 < h) (x y : Int) :
    0 ≤ (wrapCoord w h x y).1 ∧ (wrapCoord w h x y).1 < w ∧
      0 ≤ (wrapCoord w h x y).2 ∧ (wrapCoord w h x y).2 < h := by
  rw [wrapCoord_eq_emod hw hh]
  exact ⟨Int.emod_nonneg x (by omega), Int.emod_lt_of_pos x hw,
    Int.emod_nonneg y (by omega), Int.emod_lt_of_pos y hh⟩

theorem bigShiftLeft32_ofNat (b : ℕ) : bigShiftLeft (b : Int) 32 = ((b * 2 ^ 32 : ℕ) : Int) := by
  unfold bigShiftLeft
  push_cast
  ring

theorem packCoord_ofNat (a b : ℕ) :
    packCoord (a : Int) (b : Int) = ((b * 2 ^ 32 ||| a : ℕ) : Int) := by
  unfold packCoord
  rw [bigShiftLeft32_ofNat]
  rfl

theorem packCoord_nonneg_eq (a b : ℕ) (ha : a < 2 ^ 32) :
    packCoord (a : Int) (b : Int) = ((b * 2 ^ 32 + a : ℕ) : Int) := by
  rw [packCoord_ofNat]
  congr 1
  rw [Nat.mul_comm b (2 ^ 32), ← Nat.mul_add_lt_is_or ha, Nat.mul_comm]

theorem unpackCoord_packCoord {w h : Int} (hw : 0 < w) (hwle : w ≤ 2 ^ 32) (hh : 0 < h)
    {a b : Int} (ha : 0 ≤ a) (haw : a < w) (hb : 0 ≤ b) (hbh : b < h) :
    unpackCoord w h (packCoord a b) = (a, b) := by
  obtain ⟨na, rfl⟩ := Int.eq_ofNat_of_zero_le ha
  obtain ⟨nb, rfl⟩ := Int.eq_ofNat_of_zero_le hb
  have hna : na < 2 ^ 32 := by
    have : (na : Int) < 2 ^ 32 := lt_of_lt_of_le haw hwle
    exact_mod_cast this
  rw [packCoord_nonneg_eq na nb hna]
  unfold unpackCoord
  have hland : bigAnd ((nb * 2 ^ 32 + na : ℕ) : Int) 0xffffffff
      = ((nb * 2 ^ 32 + na) &&& 0xffffffff : ℕ) := rfl
  have hmask : ((nb * 2 ^ 32 + na) &&& 0xffffffff : ℕ) = na := by
    rw [show (0xffffffff : ℕ) = 2 ^ 32 - 1 by norm_num,
      Nat.and_pow_two_sub_one_eq_mod, Nat.mul_comm, Nat.mul_add_mod]
    exact Nat.mod_eq_of_lt hna
  have hshift : bigShiftRight ((nb * 2 ^ 32 + na : ℕ) : Int) 32
      = (((nb * 2 ^ 32 + na) >>> 32 : ℕ) : Int) := rfl
  have hdiv : ((nb * 2 ^ 32 + na) >>> 32 : ℕ) = nb := by
    rw [Nat.shiftRight_eq_div_pow, Nat.mul_comm, Nat.mul_add_div (Nat.two_pow_pos 32),
      Nat.div_eq_of_lt hna, Nat.add_zero]
  rw [hland, hmask, hshift, hdiv, wrapCoord_eq_emod hw hh,
    Int.emod_eq_of_lt ha haw, Int.emod_eq_of_lt hb hbh]

/-! ## Simple facts about `simulate` -/

theorem simLoop_nil_pot (w h : Int) (A : List Int) (fuel i : Nat) (acc : List Int) :
    simLoop w h A fuel i acc [] = (acc, []) := by
  cases fuel with
  | zero => rfl
  | succ n => rfl

/-- C5: after `simulate` returns, the exposed current active set equals the
value the next-generation buffer held immediately before the call; the
freshly computed generation reaches the exposed set only on the following
call. -/
theorem simulate_publishes_previous_buffer :
    ∀ (w h : Int) (st : GameState),
      (simulate w h st).activeCells = st.activeCellsNext ∧
      (simulate w h (simulate w h st)).activeCells = (simulate w h st).activeCellsNext :=
  fun _ _ _ => ⟨rfl, rfl⟩

/-- C10: `resetGame` leaves all four sets empty and the generation counter
at 0; a single subsequent `simulate` of the reset state leaves every set
empty and sets the counter to exactly 1; every `simulate` increments the
counter by exactly 1. -/
theorem reset_then_step_spec :
    (resetGame.activeCells = [] ∧ resetGame.activeCellsNext = [] ∧
      resetGame.potentialCells = [] ∧ resetGame.potentialCellsNext = [] ∧
      resetGame.generation = 0) ∧
    (∀ w h : Int, simulate w h resetGame =
      { activeCells := [], activeCellsNext := [], potentialCells := [],
        potentialCellsNext := [], generation := 1 }) ∧
    (∀ (w h : Int) (st : GameState), (simulate w h st).generation = st.generation + 1) := by
  refine ⟨⟨rfl, rfl, rfl, rfl, rfl⟩, ?_, fun w h st => rfl⟩
  intro w h
  simp [simulate, simLoop_nil_pot, resetGame]

/-- C4 counterexample: one isolated cell is inserted and one step is run;
the *published* current active set still contains the cell (the death is
recorded only in the next-generation buffer). -/
theorem isolated_cell_still_published_after_one_step :
    packCoord 5 5 ∈ (simulate 8 8 (insertCell 5 5 resetGame)).activeCells := by decide

/-- C4 amended: after one step the isolated cell is gone from the
next-generation buffer, and gone from the published current active set
after the second step. -/
theorem isolated_cell_dies_with_lag :
    packCoord 5 5 ∉ (simulate 8 8 (insertCell 5 5 resetGame)).activeCellsNext ∧
    packCoord 5 5 ∉ (simulate 8 8 (simulate 8 8 (insertCell 5 5 resetGame))).activeCells := by
  decide

/-- C8: a cell at column 0 dies during `simulate`, but no key in the
resulting potential set decodes to its left-hand torus neighbour `(7, 3)`:
the death branch packs the raw offsets `(-1, 2..4)` and all three collapse
to the single key `-1` (which decodes to `(7, 7)`), so the spec's
update-completeness superset property fails at the left grid boundary. -/
theorem left_column_death_neighbors_missing :
    packCoord 0 3 ∈ (simulate 8 8 (insertCell 0 3 resetGame)).activeCells ∧
    packCoord 0 3 ∉ (simulate 8 8 (insertCell 0 3 resetGame)).activeCellsNext ∧
    ∀ k ∈ (simulate 8 8 (insertCell 0 3 resetGame)).potentialCellsNext,
      unpackCoord 8 8 k ≠ (7, 3) := by decide

theorem left_column_death_neighbors_missing_witness :
    unpackCoord 8 8 (-1) ≠ (7, 3) :=
  left_column_death_neighbors_missing.2.2 (-1) (by decide)

/-- C7: the sets store keys that are not the encoding of any in-range
coordinate pair: inserting at the (in-range) origin puts the key `-1` into
the next potential set, yet every packed in-range pair is non-negative. -/
theorem stored_key_not_in_range_encoding :
    (-1 : Int) ∈ (insertCell 0 0 resetGame).potentialCellsNext ∧
    ∀ a b : Int, 0 ≤ a → 0 ≤ b → packCoord a b ≠ -1 := by
  constructor
  · decide
  · intro a b ha hb
    obtain ⟨na, rfl⟩ := Int.eq_ofNat_of_zero_le ha
    obtain ⟨nb, rfl⟩ := Int.eq_ofNat_of_zero_le hb
    rw [packCoord_ofNat]
    omega

theorem stored_key_not_in_range_encoding_witness :
    (-1 : Int) ∈ (insertCell 0 0 resetGame).potentialCellsNext ∧ packCoord 0 0 ≠ -1 :=
  ⟨stored_key_not_in_range_encoding.1,
    stored_key_not_in_range_encoding.2 0 0 le_rfl le_rfl⟩

/-- C1 counterexample: a potential cell that is dead with neighbour count
1 is *not* "in neither set" after the step — it remains in the next
potential set, because the potential buffer is shared between generations
and never cleared. -/
theorem dead_cell_remains_in_next_potential :
    packCoord 4 4 ∈ (insertCell 5 5 resetGame).potentialCellsNext ∧
    packCoord 4 4 ∉ (insertCell 5 5 resetGame).activeCellsNext ∧
    neighborsCount 8 8 (insertCell 5 5 resetGame).activeCellsNext 4 4 ≠ 3 ∧
    packCoord 4 4 ∈ (simulate 8 8 (insertCell 5 5 resetGame)).potentialCellsNext := by decide

/-- C9 counterexample: `insertCell` does not wrap: inserting at `(-1, 0)`
does not mark the wrapped cell `(7, 0)` alive (the raw key `-1` is stored
instead), and inserting at the in-range origin does not add the torus
neighbour key for `(7, 7)` to the potential set. -/
theorem insertCell_does_not_wrap :
    packCoord ((wrapCoord 8 8 (-1) 0).1) ((wrapCoord 8 8 (-1) 0).2)
        ∉ (insertCell (-1) 0 resetGame).activeCells ∧
    (wrapCoord 8 8 (-1) (-1) = (7, 7) ∧
      packCoord 7 7 ∉ (insertCell 0 0 resetGame).potentialCellsNext) := by decide

/-- C6 counterexample: with width `2^32 + 1` (positive, as the claim
allows) the wrapped x-coordinate of `(-1, 0)` is `2^32`, which collides in
the 32-bit packing, so the decode of the encode is not the wrapped pair. -/
theorem codec_roundtrip_fails_for_wide_grid :
    unpackCoord (2 ^ 32 + 1) 1
        (packCoord ((wrapCoord (2 ^ 32 + 1) 1 (-1) 0).1)
          ((wrapCoord (2 ^ 32 + 1) 1 (-1) 0).2))
      ≠ wrapCoord (2 ^ 32 + 1) 1 (-1) 0 := by decide

/-- C6 amended: for every positive width at most `2^32`, every positive
height and all integers `x`, `y`, decoding the encoding of the wrapped
coordinate recovers it exactly. -/
theorem codec_roundtrip (x y w h : Int) (hw : 0 < w) (hwle : w ≤ 2 ^ 32) (hh : 0 < h) :
    unpackCoord w h (packCoord (wrapCoord w h x y).1 (wrapCoord w h x y).2)
      = wrapCoord w h x y := by
  obtain ⟨h1, h2, h3, h4⟩ := wrapCoord_mem_range hw hh x y
  rw [unpackCoord_packCoord hw hwle hh h1 h2 h3 h4]

theorem codec_roundtrip_witness :
    unpackCoord 8 8 (packCoord ((wrapCoord 8 8 (-1) 0).1) ((wrapCoord 8 8 (-1) 0).2))
      = wrapCoord 8 8 (-1) 0 :=
  codec_roundtrip (-1) 0 8 8 (by decide) (by decide) (by decide)

/-! ## The 2x2 block still life -/

theorem simulate_blockState (g : Int) :
    simulate 8 8 (blockState g) = blockState (g + 1) := by
  have hres : simLoop 8 8 blockCells (fuelFor 8 8 stBlock.potentialCellsNext)
      0 [] stBlock.potentialCellsNext = (blockCells, stBlock.potentialCellsNext) := by decide
  simp [simulate, blockState, hres]

theorem iterate_blockState (n : ℕ) : ∀ g : Int,
    (simulate 8 8)^[n] (blockState g) = blockState (g + n) := by
  induction n with
  | zero => intro g; simp
  | succ m ih =>
    intro g
    rw [Function.iterate_succ_apply, simulate_blockState, ih (g + 1)]
    congr 1
    push_cast
    ring

/-- C2: starting from a reset state with the four cells of a 2x2 block
inserted (each having exactly 3 active neighbours), the published active
set equals exactly those four cells after any number of steps. -/
theorem block_still_life_forever :
    (neighborsCount 8 8 stBlock.activeCells 3 3 = 3 ∧
      neighborsCount 8 8 stBlock.activeCells 4 3 = 3 ∧
      neighborsCount 8 8 stBlock.activeCells 3 4 = 3 ∧
      neighborsCount 8 8 stBlock.activeCells 4 4 = 3) ∧
    ∀ n : ℕ, ((simulate 8 8)^[n] stBlock).activeCells = blockCells := by
  refine ⟨by decide, ?_⟩
  intro n
  cases n with
  | zero => decide
  | succ m =>
    have h0 : simulate 8 8 stBlock = blockState 1 := by decide
    rw [Function.iterate_succ_apply, h0, iterate_blockState m 1]
    rfl

/-! ## insertCell semantics (C9 amended) -/

theorem jsSetAdd_of_mem {s : List Int} {k : Int} (hk : k ∈ s) : jsSetAdd s k = s := by
  unfold jsSetAdd
  simp [hk]

/-- C9 amended: for every integer pair `(x, y)`, `insertCell` marks the
*raw* key `packCoord x y` (not the wrapped cell) alive in both the current
and the next active sets, idempotently (re-inserting a key already present
leaves the corresponding active set unchanged), and adds the nine raw
neighbourhood keys `packCoord (x+dx) (y+dy)` (not the wrapped 3x3 torus
cells) to the next potential set. -/
theorem insertCell_raw_semantics (x y : Int) (st : GameState) :
    (packCoord x y ∈ (insertCell x y st).activeCells ∧
      packCoord x y ∈ (insertCell x y st).activeCellsNext) ∧
    (packCoord x y ∈ st.activeCells → (insertCell x y st).activeCells = st.activeCells) ∧
    (packCoord x y ∈ st.activeCellsNext →
      (insertCell x y st).activeCellsNext = st.activeCellsNext) ∧
    ∀ dx dy : Int, -1 ≤ dx → dx ≤ 1 → -1 ≤ dy → dy ≤ 1 →
      packCoord (x + dx) (y + dy) ∈ (insertCell x y st).potentialCellsNext := by
  refine ⟨⟨mem_jsSetAdd.mpr (Or.inr rfl), mem_jsSetAdd.mpr (Or.inr rfl)⟩,
    fun hmem => jsSetAdd_of_mem hmem, fun hmem => jsSetAdd_of_mem hmem, ?_⟩
  intro dx dy h1 h2 h3 h4
  have ho : (dx, dy) ∈ offsets9 := by
    have hdx : dx = -1 ∨ dx = 0 ∨ dx = 1 := by omega
    have hdy : dy = -1 ∨ dy = 0 ∨ dy = 1 := by omega
    rcases hdx with rfl | rfl | rfl <;> rcases hdy with rfl | rfl | rfl <;> decide
  simp only [insertCell, addNbhdRaw]
  exact (mem_foldl_jsSetAdd _ offsets9 st.potentialCellsNext _).mpr
    (Or.inr ⟨(dx, dy), ho, rfl⟩)

theorem insertCell_raw_semantics_witness :
    (insertCell 3 3 (insertCell 3 3 resetGame)).activeCells
        = (insertCell 3 3 resetGame).activeCells ∧
    packCoord (3 + 1) (3 + 1) ∈ (insertCell 3 3 (insertCell 3 3 resetGame)).potentialCellsNext := by
  have ht := insertCell_raw_semantics 3 3 (insertCell 3 3 resetGame)
  exact ⟨ht.2.1 (by decide),
    ht.2.2.2 1 1 (by decide) (by decide) (by decide) (by decide)⟩

/-! ## The next active set is drawn from the iterated potential set (C3) -/

theorem jsSetAdd_subset_of {acc pot : List Int} {cell : Int}
    (hsub : acc ⊆ pot) (hcell : cell ∈ pot) : jsSetAdd acc cell ⊆ pot := by
  intro a ha
  rcases mem_jsSetAdd.mp ha with h | rfl
  · exact hsub h
  · exact hcell

theorem mem_of_getElem?_some {pot : List Int} {i : Nat} {cell : Int}
    (hcell : pot[i]? = some cell) : cell ∈ pot := by
  obtain ⟨hlt, rfl⟩ := List.getElem?_eq_some_iff.mp hcell
  exact List.getElem_mem hlt

theorem simLoop_acc_subset (w h : Int) (A : List Int) :
    ∀ (fuel i : Nat) (acc pot : List Int), acc ⊆ pot →
      (simLoop w h A fuel i acc pot).1 ⊆ (simLoop w h A fuel i acc pot).2 ∧
      pot ⊆ (simLoop w h A fuel i acc pot).2 := by
  intro fuel
  induction fuel with
  | zero => exact fun i acc pot hsub => ⟨hsub, fun a ha => ha⟩
  | succ m ih =>
    intro i acc pot hsub
    rw [simLoop]
    cases hcell : pot[i]? with
    | none => exact ⟨hsub, fun a ha => ha⟩
    | some cell =>
      dsimp only []
      have hcm : cell ∈ pot := mem_of_getElem?_some hcell
      split_ifs with hA hn hn
      · have hgrow : pot ⊆ addNbhdRaw (unpackCoord w h cell).1 (unpackCoord w h cell).2 pot :=
          subset_foldl_jsSetAdd _ offsets9 pot
        obtain ⟨hs1, hs2⟩ := ih (i + 1) acc _ (hsub.trans hgrow)
        exact ⟨hs1, fun a ha => hs2 (hgrow ha)⟩
      · exact ih (i + 1) (jsSetAdd acc cell) pot (jsSetAdd_subset_of hsub hcm)
      · have hgrow : pot ⊆ addNbhdWrapped w h
            (unpackCoord w h cell).1 (unpackCoord w h cell).2 pot :=
          subset_foldl_jsSetAdd _ offsets9 pot
        obtain ⟨hs1, hs2⟩ := ih (i + 1) (jsSetAdd acc cell) _
          (jsSetAdd_subset_of (hsub.trans hgrow) (hgrow hcm))
        exact ⟨hs1, fun a ha => hs2 (hgrow ha)⟩
      · exact ih (i + 1) acc pot hsub

/-- C3: every key added to the next active set during a call to `simulate`
is an element of the (grown) potential set the loop iterates over — which
the call also publishes as both potential buffers; consequently a cell
absent from that iterated potential set, in particular any currently
active cell that the potential set misses, is absent from the next active
set. -/
theorem next_active_subset_iterated_potential :
    ∀ (w h : Int) (st : GameState),
      ((simulate w h st).activeCellsNext ⊆ (simulate w h st).potentialCells ∧
        (simulate w h st).potentialCells = (simulate w h st).potentialCellsNext) ∧
      ∀ c : Int, c ∈ (simulate w h st).activeCells →
        c ∉ (simulate w h st).potentialCells →
        c ∉ (simulate w h st).activeCellsNext := by
  intro w h st
  have hmain := simLoop_acc_subset w h st.activeCellsNext
    (fuelFor w h st.potentialCellsNext) 0 [] st.potentialCellsNext
    (by intro a ha; cases ha)
  exact ⟨⟨hmain.1, rfl⟩, fun c _ hnp hna => hnp (hmain.1 hna)⟩

theorem next_active_subset_iterated_potential_witness :
    (5 : Int) ∉ (simulate 1 1 stray).activeCellsNext :=
  (next_active_subset_iterated_potential 1 1 stray).2 5 (by decide) (by decide)

/-! ## Full characterisation of the evaluation loop (C1) -/

theorem mem_univKeys {w h a b : Int} (hw : 0 < w) (hh : 0 < h)
    (ha1 : -1 ≤ a) (ha2 : a ≤ w) (hb1 : -1 ≤ b) (hb2 : b ≤ h) :
    packCoord a b ∈ univKeys w h := by
  unfold univKeys
  refine Finset.mem_image.mpr ⟨((a + 1).toNat, (b + 1).toNat), ?_, ?_⟩
  · refine Finset.mem_product.mpr ⟨Finset.mem_range.mpr ?_, Finset.mem_range.mpr ?_⟩ <;> omega
  · have h1 : (((a + 1).toNat : ℕ) : Int) - 1 = a := by omega
    have h2 : (((b + 1).toNat : ℕ) : Int) - 1 = b := by omega
    rw [h1, h2]

theorem univKeys_card_le (w h : Int) :
    (univKeys w h).card ≤ (w.toNat + 2) * (h.toNat + 2) := by
  unfold univKeys
  refine Finset.card_image_le.trans ?_
  rw [Finset.card_product, Finset.card_range, Finset.card_range]

theorem unpackCoord_mem_range {w h : Int} (hw : 0 < w) (hh : 0 < h) (p : Int) :
    0 ≤ (unpackCoord w h p).1 ∧ (unpackCoord w h p).1 < w ∧
      0 ≤ (unpackCoord w h p).2 ∧ (unpackCoord w h p).2 < h :=
  wrapCoord_mem_range hw hh _ _

theorem offsets9_bounds : ∀ o ∈ offsets9,
    (-1 ≤ o.1 ∧ o.1 ≤ 1) ∧ (-1 ≤ o.2 ∧ o.2 ≤ 1) := by decide

theorem jsSetAdd_measure {pot : List Int} {k : Int} {U : Finset Int} (hk : k ∈ U) :
    (jsSetAdd pot k).length + (U \ (jsSetAdd pot k).toFinset).card
      = pot.length + (U \ pot.toFinset).card := by
  unfold jsSetAdd
  split
  · rfl
  · rename_i hkp
    have htf : (pot ++ [k]).toFinset = insert k pot.toFinset := by
      ext m
      simp [or_comm]
    have hdiff : U \ insert k pot.toFinset = (U \ pot.toFinset).erase k := by
      ext m
      simp only [Finset.mem_sdiff, Finset.mem_erase, Finset.mem_insert]
      tauto
    have hkin : k ∈ U \ pot.toFinset := by
      rw [Finset.mem_sdiff, List.mem_toFinset]
      exact ⟨hk, hkp⟩
    have hcard : 0 < (U \ pot.toFinset).card := Finset.card_pos.mpr ⟨k, hkin⟩
    rw [htf, hdiff, Finset.card_erase_of_mem hkin, List.length_append]
    simp only [List.length_singleton]
    omega

theorem foldl_jsSetAdd_measure {α : Type} (f : α → Int) (U : Finset Int) :
    ∀ (L : List α) (pot : List Int), (∀ o ∈ L, f o ∈ U) →
      (L.foldl (fun s o => jsSetAdd s (f o)) pot).length
        + (U \ (L.foldl (fun s o => jsSetAdd s (f o)) pot).toFinset).card
      = pot.length + (U \ pot.toFinset).card
  | [], pot, _ => rfl
  | a :: L, pot, hmem => by
    rw [List.foldl_cons,
      foldl_jsSetAdd_measure f U L (jsSetAdd pot (f a)) (fun o ho => hmem o (by simp [ho])),
      jsSetAdd_measure (hmem a (by simp))]

theorem addNbhdRaw_measure {w h : Int} (hw : 0 < w) (hh : 0 < h) {x y : Int}
    (hx1 : 0 ≤ x) (hx2 : x < w) (hy1 : 0 ≤ y) (hy2 : y < h) (pot : List Int) :
    (addNbhdRaw x y pot).length + (univKeys w h \ (addNbhdRaw x y pot).toFinset).card
      = pot.length + (univKeys w h \ pot.toFinset).card := by
  unfold addNbhdRaw
  apply foldl_jsSetAdd_measure
  intro o ho
  obtain ⟨⟨hb1, hb2⟩, hb3, hb4⟩ := offsets9_bounds o ho
  exact mem_univKeys hw hh (by omega) (by omega) (by omega) (by omega)

theorem addNbhdWrapped_measure {w h : Int} (hw : 0 < w) (hh : 0 < h) (x y : Int)
    (pot : List Int) :
    (addNbhdWrapped w h x y pot).length
        + (univKeys w h \ (addNbhdWrapped w h x y pot).toFinset).card
      = pot.length + (univKeys w h \ pot.toFinset).card := by
  unfold addNbhdWrapped
  apply foldl_jsSetAdd_measure
  intro o ho
  obtain ⟨hr1, hr2, hr3, hr4⟩ := wrapCoord_mem_range hw hh (x + o.1) (y + o.2)
  exact mem_univKeys hw hh (by omega) (by omega) (by omega) (by omega)

theorem addNbhdRaw_exists_append (x y : Int) (pot : List Int) :
    ∃ t, addNbhdRaw x y pot = pot ++ t := by
  unfold addNbhdRaw
  exact foldl_jsSetAdd_exists_append _ offsets9 pot

theorem addNbhdWrapped_exists_append (w h x y : Int) (pot : List Int) :
    ∃ t, addNbhdWrapped w h x y pot = pot ++ t := by
  unfold addNbhdWrapped
  exact foldl_jsSetAdd_exists_append _ offsets9 pot

/-- Main characterisation of the evaluation loop: provided the fuel covers
the remaining indices plus every key that could still be appended, the
final next active set contains a key iff the final (grown) potential set
contains it and it satisfies the survival/birth condition. -/
theorem simLoop_spec (w h : Int) (hw : 0 < w) (hh : 0 < h) (A : List Int) :
    ∀ (fuel i : Nat) (acc pot : List Int),
      (pot.length - i) + (univKeys w h \ pot.toFinset).card ≤ fuel →
      (∀ a : Int, a ∈ acc ↔ a ∈ pot.take i ∧ simCond w h A a) →
      ∀ a : Int, a ∈ (simLoop w h A fuel i acc pot).1 ↔
        a ∈ (simLoop w h A fuel i acc pot).2 ∧ simCond w h A a := by
  intro fuel
  induction fuel with
  | zero =>
    intro i acc pot hfuel hinv a
    have hlen : pot.length ≤ i := by omega
    rw [simLoop]
    rw [List.take_of_length_le hlen] at hinv
    exact hinv a
  | succ m ih =>
    intro i acc pot hfuel hinv a
    rw [simLoop]
    cases hcell : pot[i]? with
    | none =>
      have hlen : pot.length ≤ i := by
        by_contra hlt
        push_neg at hlt
        rw [List.getElem?_eq_getElem hlt] at hcell
        cases hcell
      rw [List.take_of_length_le hlen] at hinv
      exact hinv a
    | some cell =>
      dsimp only []
      have hlt : i < pot.length := by
        obtain ⟨hl, _⟩ := List.getElem?_eq_some_iff.mp hcell
        exact hl
      have htake : pot.take (i + 1) = pot.take i ++ [cell] := by
        rw [List.take_succ, hcell]
        rfl
      split_ifs with hA hn hn
      · -- death branch: active cell with count not 2/3 is not kept
        have hnc : ¬ simCond w h A cell := by
          rintro (⟨_, hc | hc⟩ | ⟨hna, _⟩)
          · exact hn.1 hc
          · exact hn.2 hc
          · exact hna hA
        obtain ⟨hr1, hr2, hr3, hr4⟩ := unpackCoord_mem_range hw hh cell
        have hmeas := addNbhdRaw_measure hw hh hr1 hr2 hr3 hr4 pot
        obtain ⟨ext, hext⟩ := addNbhdRaw_exists_append
          (unpackCoord w h cell).1 (unpackCoord w h cell).2 pot
        rw [hext] at hmeas ⊢
        refine ih (i + 1) acc (pot ++ ext) ?_ ?_ a
        · have hla : (pot ++ ext).length = pot.length + ext.length :=
            List.length_append _ _
          omega
        · intro b
          rw [List.take_append_eq_append_take, Nat.sub_eq_zero_of_le (by omega),
            List.take_zero, List.append_nil, htake]
          constructor
          · intro hb
            obtain ⟨hbt, hbc⟩ := (hinv b).mp hb
            exact ⟨List.mem_append.mpr (Or.inl hbt), hbc⟩
          · rintro ⟨hbt, hbc⟩
            rcases List.mem_append.mp hbt with hbt | hbt
            · exact (hinv b).mpr ⟨hbt, hbc⟩
            · rw [List.mem_singleton] at hbt
              subst hbt
              exact absurd hbc hnc
      · -- survival branch: active cell with count 2 or 3 is kept
        have hcnd : simCond w h A cell := by
          refine Or.inl ⟨hA, ?_⟩
          by_contra hcon
          push_neg at hcon
          exact hn hcon
        refine ih (i + 1) (jsSetAdd acc cell) pot ?_ ?_ a
        · omega
        · intro b
          rw [htake]
          constructor
          · intro hb
            rcases mem_jsSetAdd.mp hb with hb | rfl
            · obtain ⟨hbt, hbc⟩ := (hinv b).mp hb
              exact ⟨List.mem_append.mpr (Or.inl hbt), hbc⟩
            · exact ⟨List.mem_append.mpr (Or.inr (List.mem_singleton.mpr rfl)), hcnd⟩
          · rintro ⟨hbt, hbc⟩
            rcases List.mem_append.mp hbt with hbt | hbt
            · exact mem_jsSetAdd.mpr (Or.inl ((hinv b).mpr ⟨hbt, hbc⟩))
            · exact mem_jsSetAdd.mpr (Or.inr (List.mem_singleton.mp hbt))
      · -- birth branch: dead cell with count 3 is added
        have hcnd : simCond w h A cell := Or.inr ⟨hA, hn⟩
        have hmeas := addNbhdWrapped_measure hw hh
          (unpackCoord w h cell).1 (unpackCoord w h cell).2 pot
        obtain ⟨ext, hext⟩ := addNbhdWrapped_exists_append w h
          (unpackCoord w h cell).1 (unpackCoord w h cell).2 pot
        rw [hext] at hmeas ⊢
        refine ih (i + 1) (jsSetAdd acc cell) (pot ++ ext) ?_ ?_ a
        · have hla : (pot ++ ext).length = pot.length + ext.length :=
            List.length_append _ _
          omega
        · intro b
          rw [List.take_append_eq_append_take, Nat.sub_eq_zero_of_le (by omega),
            List.take_zero, List.append_nil, htake]
          constructor
          · intro hb
            rcases mem_jsSetAdd.mp hb with hb | rfl
            · obtain ⟨hbt, hbc⟩ := (hinv b).mp hb
              exact ⟨List.mem_append.mpr (Or.inl hbt), hbc⟩
            · exact ⟨List.mem_append.mpr (Or.inr (List.mem_singleton.mpr rfl)), hcnd⟩
          · rintro ⟨hbt, hbc⟩
            rcases List.mem_append.mp hbt with hbt | hbt
            · exact mem_jsSetAdd.mpr (Or.inl ((hinv b).mpr ⟨hbt, hbc⟩))
            · exact mem_jsSetAdd.mpr (Or.inr (List.mem_singleton.mp hbt))
      · -- skip branch: dead cell with count not 3
        have hnc : ¬ simCond w h A cell := by
          rintro (⟨hmem, _⟩ | ⟨_, h3⟩)
          · exact hA hmem
          · exact hn h3
        refine ih (i + 1) acc pot ?_ ?_ a
        · omega
        · intro b
          rw [htake]
          constructor
          · intro hb
            obtain ⟨hbt, hbc⟩ := (hinv b).mp hb
            exact ⟨List.mem_append.mpr (Or.inl hbt), hbc⟩
          · rintro ⟨hbt, hbc⟩
            rcases List.mem_append.mp hbt with hbt | hbt
            · exact (hinv b).mpr ⟨hbt, hbc⟩
            · rw [List.mem_singleton] at hbt
              subst hbt
              exact absurd hbc hnc

/-- C1 amended: during a call to `simulate`, a key of the promoted
potential set is placed into the next active set iff it is currently
active with neighbour count exactly 2 or 3, or currently inactive with
neighbour count exactly 3 (so inactive keys with another count are not
added to the next active set) — but every such key *remains* in the next
potential set, which is shared between generations and never cleared. -/
theorem simulate_next_active_iff_rule (w h : Int) (hw : 0 < w) (hh : 0 < h)
    (st : GameState) (c : Int) (hc : c ∈ st.potentialCellsNext) :
    (c ∈ (simulate w h st).activeCellsNext ↔
      ((c ∈ st.activeCellsNext ∧
         (cellCount w h st.activeCellsNext c = 2 ∨ cellCount w h st.activeCellsNext c = 3)) ∨
       (c ∉ st.activeCellsNext ∧ cellCount w h st.activeCellsNext c = 3))) ∧
    c ∈ (simulate w h st).potentialCellsNext := by
  have hfuel : (st.potentialCellsNext.length - 0)
      + (univKeys w h \ st.potentialCellsNext.toFinset).card
      ≤ fuelFor w h st.potentialCellsNext := by
    have h1 : (univKeys w h \ st.potentialCellsNext.toFinset).card ≤ (univKeys w h).card :=
      Finset.card_le_card Finset.sdiff_subset
    have h2 := univKeys_card_le w h
    unfold fuelFor
    omega
  have hinv : ∀ a : Int, a ∈ ([] : List Int) ↔
      a ∈ st.potentialCellsNext.take 0 ∧ simCond w h st.activeCellsNext a := by
    intro a
    simp
  have hspec := simLoop_spec w h hw hh st.activeCellsNext
    (fuelFor w h st.potentialCellsNext) 0 [] st.potentialCellsNext hfuel hinv
  have hsub := simLoop_acc_subset w h st.activeCellsNext
    (fuelFor w h st.potentialCellsNext) 0 [] st.potentialCellsNext
    (by intro x hx; cases hx)
  have hcp : c ∈ (simLoop w h st.activeCellsNext (fuelFor w h st.potentialCellsNext)
      0 [] st.potentialCellsNext).2 := hsub.2 hc
  simp only [simulate]
  exact ⟨⟨fun hmem => ((hspec c).mp hmem).2, fun hcond => (hspec c).mpr ⟨hcp, hcond⟩⟩, hcp⟩

theorem simulate_next_active_iff_rule_witness :
    (packCoord 0 0 ∈ (simulate 8 8 (insertCell 0 0 resetGame)).activeCellsNext ↔
      ((packCoord 0 0 ∈ (insertCell 0 0 resetGame).activeCellsNext ∧
         (cellCount 8 8 (insertCell 0 0 resetGame).activeCellsNext (packCoord 0 0) = 2 ∨
          cellCount 8 8 (insertCell 0 0 resetGame).activeCellsNext (packCoord 0 0) = 3)) ∨
       (packCoord 0 0 ∉ (insertCell 0 0 resetGame).activeCellsNext ∧
         cellCount 8 8 (insertCell 0 0 resetGame).activeCellsNext (packCoord 0 0) = 3))) ∧
    packCoord 0 0 ∈ (simulate 8 8 (insertCell 0 0 resetGame)).potentialCellsNext :=
  simulate_next_active_iff_rule 8 8 (by decide) (by decide) (insertCell 0 0 resetGame)
    (packCoord 0 0) (by decide)
